import Mathlib

/-!
Shallow embedding of the perfgrind profile construction and symbol
resolution core (src/Profile.cpp and src/AddressResolver.cpp).

Addresses and counts are modelled as Nat.  Where the C++ code subtracts
uint64 values (and may wrap), the explicit wrapping subtraction u64sub
below is used; u64add is the wrapping addition.  Additions whose operands
stay far below 2 to the 64 in all claims under study are modelled as plain
Nat addition.
-/

def U64 : Nat := 18446744073709551616

/-- Wrapping uint64 subtraction: the value of a - b in C for uint64
operands already reduced below 2 to the 64. -/
def u64sub (a b : Nat) : Nat := (a + (U64 - b % U64)) % U64

/-- Wrapping uint64 addition. -/
def u64add (a b : Nat) : Nat := (a + b) % U64

def PERF_MAX_STACK_DEPTH : Nat := 127

/-- PERF_CONTEXT_KERNEL from linux/perf_event.h: (u64)-128. -/
def PERF_CONTEXT_KERNEL : Nat := U64 - 128

/-- PERF_CONTEXT_USER from linux/perf_event.h: (u64)-512. -/
def PERF_CONTEXT_USER : Nat := U64 - 512

/-- PERF_CONTEXT_MAX from linux/perf_event.h: (u64)-4095. -/
def PERF_CONTEXT_MAX : Nat := U64 - 4095

/-- Modelled from the spec: Range.h is not among the sources.  A Range is a
half-open interval of 64-bit addresses, ordered by the convention that
r1 is below r2 iff r1.end is at most r2.start; in a map of pairwise
disjoint ranges, lookup of a point-valued range returns the unique stored
range containing the point, and an insertion collides exactly with the
stored ranges it overlaps. -/
structure Range where
  start : Nat
  stop : Nat
deriving DecidableEq

def Range.contains (r : Range) (a : Nat) : Bool :=
  decide (r.start ≤ a ∧ a < r.stop)

/-- Two ranges are equivalent under the map comparator (neither is fully
below the other), so inserting one while the other is stored collides. -/
def Range.overlapsB (r1 r2 : Range) : Bool :=
  decide (r2.start < r1.stop ∧ r1.start < r2.stop)

/-- branches_ of EntryData: a std::map from branch target address to its
count, modelled as a key-sorted association list. -/
abbrev BranchStorage := List (Nat × Nat)

/-- The std::map insert-or-accumulate performed by EntryData::appendBranch. -/
def branchesAdd : BranchStorage → Nat → Nat → BranchStorage
  | [], address, count => [(address, count)]
  | (a, c) :: rest, address, count =>
    if address < a then (address, count) :: (a, c) :: rest
    else if address = a then (a, c + count) :: rest
    else (a, c) :: branchesAdd rest address count

structure EntryData where
  count : Nat
  branches : BranchStorage
deriving DecidableEq

/-- EntryData::appendBranch. -/
def EntryData.appendBranch (ed : EntryData) (address : Nat) (count : Nat) : EntryData :=
  { ed with branches := branchesAdd ed.branches address count }

abbrev EntryStorage := List (Nat × EntryData)

/-- MemoryObjectData::appendEntry on the entry map: insert a fresh
EntryData(count) or EntryData::addCount on the existing one. -/
def entriesAppend : EntryStorage → Nat → Nat → EntryStorage
  | [], address, count => [(address, EntryData.mk count [])]
  | (a, ed) :: rest, address, count =>
    if address < a then (address, EntryData.mk count []) :: (a, ed) :: rest
    else if address = a then (a, EntryData.mk (ed.count + count) ed.branches) :: rest
    else (a, ed) :: entriesAppend rest address count

structure MemoryObjectData where
  fileName : String
  entries : EntryStorage
deriving DecidableEq

def MemoryObjectData.appendEntry (d : MemoryObjectData) (address : Nat) (count : Nat) :
    MemoryObjectData :=
  { d with entries := entriesAppend d.entries address count }

/-- MemoryObjectData::appendBranch: appendEntry(from, 0) followed by
EntryData::appendBranch(to, count) on the entry just found or created. -/
def entriesAddBranch (es : EntryStorage) (f t : Nat) (count : Nat) : EntryStorage :=
  (entriesAppend es f 0).map (fun e => if e.1 = f then (e.1, e.2.appendBranch t count) else e)

def MemoryObjectData.appendBranch (d : MemoryObjectData) (f t : Nat) (count : Nat) :
    MemoryObjectData :=
  { d with entries := entriesAddBranch d.entries f t count }

/-- Output symbol table: Range to SymbolData, where SymbolData holds the
name. -/
abbrev SymbolStorage := List (Range × String)

/-- Point lookup in a Range-keyed map (std::map find with a point-valued
key): the stored range containing the address, if any. -/
def SymbolStorage.findAddr (symbols : SymbolStorage) (a : Nat) : Option (Range × String) :=
  symbols.find? (fun s => s.1.contains a)

/-- One branch of the rebuild loop of MemoryObjectData::fixupBranches. -/
def fixupStep (symbols : SymbolStorage) (acc : EntryData) (b : Nat × Nat) : EntryData :=
  match SymbolStorage.findAddr symbols b.1 with
  | some s => acc.appendBranch s.1.start b.2
  | none => acc.appendBranch b.1 b.2

/-- The per-entry body of MemoryObjectData::fixupBranches: entries without
branches are left alone, the others are rebuilt from EntryData(count). -/
def EntryData.fixup (symbols : SymbolStorage) (ed : EntryData) : EntryData :=
  if ed.branches.isEmpty then ed
  else ed.branches.foldl (fixupStep symbols) (EntryData.mk ed.count [])

/-- MemoryObjectData::fixupBranches over the whole entry map. -/
def MemoryObjectData.fixupBranches (d : MemoryObjectData) (symbols : SymbolStorage) :
    MemoryObjectData :=
  { d with entries := d.entries.map (fun e => (e.1, EntryData.fixup symbols e.2)) }

abbrev MemoryObjectStorage := List (Range × MemoryObjectData)

/-- std::map insert on a Range-keyed map: the new pair lands at its sorted
position unless an equivalent (overlapping) key is already present, in
which case the map is unchanged. -/
def rangeMapInsert {α : Type} : List (Range × α) → Range → α → List (Range × α)
  | [], r, d => [(r, d)]
  | (r0, d0) :: rest, r, d =>
    if r.stop ≤ r0.start then (r, d) :: (r0, d0) :: rest
    else if r0.stop ≤ r.start then (r0, d0) :: rangeMapInsert rest r d
    else (r0, d0) :: rest

inductive ProfileMode where
  | Flat
  | CallGraph
deriving DecidableEq

structure Profile where
  memoryObjects : MemoryObjectStorage
  symbols : SymbolStorage
  mmapEventCount : Nat
  goodSamplesCount : Nat
  badSamplesCount : Nat
deriving DecidableEq

def initialProfile : Profile := Profile.mk [] [] 0 0 0

/-- pe::sample_event: the ip, the callchain size, and the callchain words.
The C struct always holds PERF_MAX_STACK_DEPTH slots; reads are modelled
with getD. -/
structure SampleEvent where
  ip : Nat
  callchainSize : Nat
  callchain : List Nat
deriving DecidableEq

/-- Mutation through the iterator returned by std::map::find: update the
first memory object whose range contains the address. -/
def updateObjectAt :
    MemoryObjectStorage → Nat → (MemoryObjectData → MemoryObjectData) → MemoryObjectStorage
  | [], _, _ => []
  | (r, d) :: rest, a, upd =>
    if r.contains a then (r, upd d) :: rest else (r, d) :: updateObjectAt rest a upd

/-- One iteration of the callchain loop in
ProfilePrivate::processSampleEvent, acting on the state
(memoryObjects, skipFrame, callTo). -/
def walkStep (acc : MemoryObjectStorage × Bool × Nat) (callFrom : Nat) :
    MemoryObjectStorage × Bool × Nat :=
  if PERF_CONTEXT_MAX < callFrom then
    (acc.1, decide (callFrom ≠ PERF_CONTEXT_USER), acc.2.2)
  else if acc.2.1 = true ∨ callFrom = acc.2.2 then acc
  else
    match acc.1.find? (fun o => o.1.contains callFrom) with
    | none => acc
    | some _ =>
      (updateObjectAt acc.1 callFrom (fun d => d.appendBranch callFrom acc.2.2 1), acc.2.1, callFrom)

/-- ProfilePrivate::processSampleEvent. -/
def processSampleEvent (mode : ProfileMode) (ev : SampleEvent) (st : Profile) : Profile :=
  if ev.callchain.getD 0 0 ≠ PERF_CONTEXT_USER ∨ ev.callchainSize < 2 ∨
      PERF_MAX_STACK_DEPTH < ev.callchainSize then
    { st with badSamplesCount := st.badSamplesCount + 1 }
  else
    match st.memoryObjects.find? (fun o => o.1.contains ev.ip) with
    | none => { st with badSamplesCount := st.badSamplesCount + 1 }
    | some _ =>
      let objs1 := updateObjectAt st.memoryObjects ev.ip (fun d => d.appendEntry ev.ip 1)
      if mode = ProfileMode.CallGraph then
        let frames := ((List.range ev.callchainSize).drop 2).map (fun i => ev.callchain.getD i 0)
        let w := frames.foldl walkStep (objs1, false, ev.ip)
        { st with memoryObjects := w.1, goodSamplesCount := st.goodSamplesCount + 1 }
      else
        { st with memoryObjects := objs1, goodSamplesCount := st.goodSamplesCount + 1 }

/-- ProfilePrivate::processMmapEvent. -/
def processMmapEvent (address length : Nat) (fileName : String) (st : Profile) : Profile :=
  { st with
      memoryObjects :=
        rangeMapInsert st.memoryObjects (Range.mk address (address + length))
          (MemoryObjectData.mk fileName []),
      mmapEventCount := st.mmapEventCount + 1 }

/-- One parsed record of the event stream consumed by Profile::load;
record types other than MMAP and SAMPLE fall through the switch. -/
inductive PerfEventRecord where
  | mmap (address : Nat) (length : Nat) (fileName : String)
  | sample (ev : SampleEvent)
  | other
deriving DecidableEq

def isSampleRecord : PerfEventRecord → Bool
  | PerfEventRecord.sample _ => true
  | _ => false

def processEvent (mode : ProfileMode) (st : Profile) : PerfEventRecord → Profile
  | PerfEventRecord.mmap a l f => processMmapEvent a l f st
  | PerfEventRecord.sample ev => processSampleEvent mode ev st
  | PerfEventRecord.other => st

/-- Profile::load over a parsed event stream, including the end-of-stream
drop of memory objects without entries. -/
def profileLoad (events : List PerfEventRecord) (mode : ProfileMode) : Profile :=
  let st := events.foldl (processEvent mode) initialProfile
  { st with memoryObjects := st.memoryObjects.filter (fun o => !o.2.entries.isEmpty) }

/-- Profile::fixupBranches: per-object fixup against the symbol table. -/
def profileFixupBranches (objs : MemoryObjectStorage) (symbols : SymbolStorage) :
    MemoryObjectStorage :=
  objs.map (fun o => (o.1, o.2.fixupBranches symbols))

/-- A sample is valid, in the wording of the spec (section 4.4):
callchain[0] is the user context marker, the callchain size lies between 2
and PERF_MAX_STACK_DEPTH, and ip falls into some known memory object. -/
def isValidSample (objects : MemoryObjectStorage) (ev : SampleEvent) : Prop :=
  ev.callchain.getD 0 0 = PERF_CONTEXT_USER ∧ 2 ≤ ev.callchainSize ∧
    ev.callchainSize ≤ PERF_MAX_STACK_DEPTH ∧ ∃ o ∈ objects, o.1.contains ev.ip = true

instance (objects : MemoryObjectStorage) (ev : SampleEvent) :
    Decidable (isValidSample objects ev) := by
  unfold isValidSample
  infer_instance

/-- The callchain-walk step as worded in the claim: a context marker above
PERF_CONTEXT_MAX sets skipFrame (false exactly for PERF_CONTEXT_USER) and
adds no branch; an address is dropped when skipFrame is set or it equals
the current callTo; otherwise, when some memory object contains it, the
branch callFrom to callTo with weight 1 is appended to that object and
callTo becomes callFrom. -/
def walkStepSpec (acc : MemoryObjectStorage × Bool × Nat) (callFrom : Nat) :
    MemoryObjectStorage × Bool × Nat :=
  if PERF_CONTEXT_MAX < callFrom then
    (acc.1, decide (callFrom ≠ PERF_CONTEXT_USER), acc.2.2)
  else if acc.2.1 = true ∨ callFrom = acc.2.2 then acc
  else if (acc.1.find? (fun o => o.1.contains callFrom)).isSome then
    (updateObjectAt acc.1 callFrom (fun d => d.appendBranch callFrom acc.2.2 1), acc.2.1, callFrom)
  else acc

structure ARSymbolData where
  size : Nat
  name : String
  binding : Nat
deriving DecidableEq

abbrev ARSymbolStorage := List (Range × ARSymbolData)

def STT_FUNC : Nat := 2
def SHN_UNDEF : Nat := 0
def PT_LOAD : Nat := 1

/-- A symbol record as decoded by gelf_getsym, with st_info already split
by the GELF_ST_TYPE and GELF_ST_BIND macros and the string-table name
already resolved by elf_strptr. -/
structure ElfSymbol where
  st_value : Nat
  st_size : Nat
  st_type : Nat
  st_binding : Nat
  st_shndx : Nat
  st_name : String
deriving DecidableEq

/-- std::map::erase on the iterator returned by a failed insert: remove the
element whose key equals the given range. -/
def eraseRange {α : Type} : List (Range × α) → Range → List (Range × α)
  | [], _ => []
  | x :: rest, r => if x.1 = r then rest else x :: eraseRange rest r

/-- The insert-with-collision-policy of
AddressResolverPrivate::loadSymbolsFromSection (lines 306 to 320): a plain
insert when no stored symbol occupies an equivalent range; otherwise the
old symbol is replaced exactly when the new one is strictly better. -/
def arSymbolInsert (storage : ARSymbolStorage) (r : Range) (d : ARSymbolData) : ARSymbolStorage :=
  match storage.find? (fun x => Range.overlapsB x.1 r) with
  | none => rangeMapInsert storage r d
  | some s =>
    if (s.2.size = 0 ∧ d.size ≠ 0) ∨ s.2.binding < d.binding then
      rangeMapInsert (eraseRange storage s.1) r d
    else storage

/-- The per-symbol body of the loop in
AddressResolverPrivate::loadSymbolsFromSection. -/
def loadSymbolStep (origBase base : Nat) (storage : ARSymbolStorage) (sym : ElfSymbol) :
    ARSymbolStorage :=
  if sym.st_type ≠ STT_FUNC ∨ sym.st_shndx = SHN_UNDEF then storage
  else
    let symStart := u64add (u64sub sym.st_value origBase) base
    let symStop := u64add symStart (if sym.st_size = 0 then 1 else sym.st_size)
    arSymbolInsert storage (Range.mk symStart symStop)
      (ARSymbolData.mk sym.st_size sym.st_name sym.st_binding)

/-- AddressResolverPrivate::loadSymbolsFromSection: the map is cleared and
refilled from the section's symbols. -/
def loadSymbolsFromSection (origBase base : Nat) (syms : List ElfSymbol) : ARSymbolStorage :=
  syms.foldl (loadSymbolStep origBase base) []

structure ProgramHeader where
  p_type : Nat
  p_vaddr : Nat
deriving DecidableEq

/-- AddressResolverPrivate::setOriginalBaseAddress, after the libelf
decoding of the .gnu.prelink_undo payload (identical for the 32-bit and
64-bit branches): the p_vaddr of the first PT_LOAD program header, or the
previous value when none exists. -/
def setOriginalBaseAddress (phdrs : List ProgramHeader) (origBase : Nat) : Nat :=
  match phdrs.find? (fun p => p.p_type == PT_LOAD) with
  | some p => p.p_vaddr
  | none => origBase

/-- Modelled from the spec: the executable metadata that ElfHolder and
libelf (external to the verified sources) present to the AddressResolver
constructor: the live load base (first PT_LOAD p_vaddr of the opened
file), which sections are present, the decoded symbol lists, the decoded
prelink-undo program headers, and the symbol table of the companion debug
file when that file opens and has one. -/
structure ElfInfo where
  baseAddress : Nat
  hasSymTab : Bool
  symTab : List ElfSymbol
  hasDynSym : Bool
  dynSym : List ElfSymbol
  hasDebugLink : Bool
  hasPrelinkUndo : Bool
  prelinkUndoPhdrs : List ProgramHeader
  debugSymTab : Option (List ElfSymbol)
deriving DecidableEq

/-- The symbol-loading part of the AddressResolver constructor (lines 196
to 234, before constructFakeSymbols): the final origBaseAddress and the
loaded symbol map.  The main file's section is read first, the original
base is adjusted only when both a prelink-undo and a debug-link section
exist, and the companion debug file is consulted only when the main file
had no symtab. -/
def constructSymbols (info : ElfInfo) : Nat × ARSymbolStorage :=
  let base := info.baseAddress
  let syms0 :=
    if info.hasSymTab then loadSymbolsFromSection base base info.symTab
    else if info.hasDynSym then loadSymbolsFromSection base base info.dynSym
    else []
  let origBase :=
    if info.hasPrelinkUndo && info.hasDebugLink then
      setOriginalBaseAddress info.prelinkUndoPhdrs base
    else base
  let syms1 :=
    if info.hasDebugLink && !info.hasSymTab then
      match info.debugSymTab with
      | some ds => loadSymbolsFromSection origBase base ds
      | none => syms0
    else syms0
  (origBase, syms1)

/-- ARSymbolData built by the ARSymbolData(uint64_t) constructor: only the
size is set; that constructor leaves binding uninitialized and it is never
read for synthetic symbols, so it is modelled as 0. -/
def gapData (w : Nat) : ARSymbolData := ARSymbolData.mk w "" 0

/-- The end an assembly label is extended to in constructFakeSymbols: the
next symbol's start, or baseAddress + objectSize when it is last. -/
def labelEnd (baseAddress objectSize : Nat) : ARSymbolStorage → Nat
  | [] => baseAddress + objectSize
  | s :: _ => s.1.start

/-- The loop of AddressResolverPrivate::constructFakeSymbols, with prevEnd
as explicit accumulator; the trailing-gap insert is the base case. -/
def fakeGo (baseAddress objectSize : Nat) (baseName : String) :
    Nat → ARSymbolStorage → ARSymbolStorage
  | prevEnd, [] =>
    if 4 ≤ u64sub (baseAddress + objectSize) prevEnd then
      [(Range.mk prevEnd (baseAddress + objectSize),
        gapData (u64sub (baseAddress + objectSize) prevEnd))]
    else []
  | prevEnd, (r, d) :: rest =>
    let tail :=
      if d.size = 0 then
        (Range.mk r.start (labelEnd baseAddress objectSize rest),
          ARSymbolData.mk (u64sub (labelEnd baseAddress objectSize rest) r.start)
            (d.name ++ "@" ++ baseName) 0)
          :: fakeGo baseAddress objectSize baseName (labelEnd baseAddress objectSize rest) rest
      else (r, d) :: fakeGo baseAddress objectSize baseName r.stop rest
    if 4 ≤ u64sub r.start prevEnd then
      (Range.mk prevEnd r.start, gapData (u64sub r.start prevEnd)) :: tail
    else tail

/-- AddressResolverPrivate::constructFakeSymbols. -/
def constructFakeSymbols (baseAddress objectSize : Nat) (baseName : String)
    (symbols : ARSymbolStorage) : ARSymbolStorage :=
  fakeGo baseAddress objectSize baseName baseAddress symbols

/-- constructSymbolName: "func_" followed by the lowercase hex digits of
the address, as printed by the std::hex stream. -/
def constructSymbolName (address : Nat) : String :=
  "func_" ++ String.mk (Nat.toDigits 16 address)

/-- The loop of AddressResolver::resolve; the inner do/while that skips
the subsequent entries inside the found symbol is the dropWhile. -/
def resolveGo (arSymbols : ARSymbolStorage) (adjust : Nat) :
    EntryStorage → List (Range × String)
  | [] => []
  | e :: rest =>
    match arSymbols.find? (fun s => s.1.contains (u64sub e.1 adjust)) with
    | none => resolveGo arSymbols adjust rest
    | some s =>
      (Range.mk (u64add s.1.start adjust) (u64add s.1.stop adjust),
        if s.2.name = "" then constructSymbolName s.1.start else s.2.name)
        :: resolveGo arSymbols adjust
            (rest.dropWhile (fun e2 => decide (u64sub e2.1 adjust < s.1.stop)))
termination_by l => l.length
decreasing_by
  all_goals simp_wf
  all_goals exact Nat.lt_succ_of_le ((List.dropWhile_sublist _).length_le)

/-- AddressResolver::resolve with adjust = loadBase - d. baseAddress; the
emitted symbols are returned in emission order. -/
def resolverResolve (arSymbols : ARSymbolStorage) (resolverBase loadBase : Nat)
    (entries : EntryStorage) : List (Range × String) :=
  resolveGo arSymbols (u64sub loadBase resolverBase) entries

/-- The resolve loop as worded in the claim: on a hit emit exactly one
symbol with the adjusted range and the stored name (or the synthetic
func name from the unadjusted start), then skip every subsequent entry
whose address minus adjust is below that symbol's end; misses emit
nothing. -/
def resolveSpecGo (arSymbols : ARSymbolStorage) (adjust : Nat) :
    EntryStorage → List (Range × String)
  | [] => []
  | e :: rest =>
    match arSymbols.find? (fun s => s.1.contains (u64sub e.1 adjust)) with
    | none => resolveSpecGo arSymbols adjust rest
    | some s =>
      (Range.mk (u64add s.1.start adjust) (u64add s.1.stop adjust),
        if s.2.name = "" then constructSymbolName s.1.start else s.2.name)
        :: resolveSpecGo arSymbols adjust
            (rest.filter (fun e2 => !decide (u64sub e2.1 adjust < s.1.stop)))
termination_by l => l.length
decreasing_by
  all_goals simp_wf
  all_goals exact Nat.lt_succ_of_le (List.length_filter_le _ _)

/-- resolveSpecGo packaged like resolverResolve. -/
def resolverResolveSpec (arSymbols : ARSymbolStorage) (resolverBase loadBase : Nat)
    (entries : EntryStorage) : List (Range × String) :=
  resolveSpecGo arSymbols (u64sub loadBase resolverBase) entries

/-- The rewrite applied to one branch target by the fixup of the claim:
the start of the containing symbol, if any. -/
def fixTarget (symbols : SymbolStorage) (a : Nat) : Nat :=
  match SymbolStorage.findAddr symbols a with
  | some s => s.1.start
  | none => a

/-- The weight stored for a target in a branch map, 0 when absent. -/
def lookupWeight (bs : BranchStorage) (t : Nat) : Nat :=
  match bs.find? (fun b => b.1 = t) with
  | some b => b.2
  | none => 0

/-- Total branch weight of an entry. -/
def totalWeight (bs : BranchStorage) : Nat := (bs.map (fun b => b.2)).sum

/-- The entry data stored at an address, if any. -/
def entriesLookup (es : EntryStorage) (a : Nat) : Option EntryData :=
  match es.find? (fun e => e.1 = a) with
  | some e => some e.2
  | none => none

/-- Key invariant of a branch map: strictly increasing keys. -/
def branchWF : BranchStorage → Bool
  | [] => true
  | b :: rest =>
    (match rest with
     | [] => true
     | b2 :: _ => decide (b.1 < b2.1)) && branchWF rest

/-- Entries come sorted by address (std::map iteration order). -/
def entriesSorted : EntryStorage → Bool
  | [] => true
  | e :: rest =>
    (match rest with
     | [] => true
     | e2 :: _ => decide (e.1 ≤ e2.1)) && entriesSorted rest

/-- Key invariant of a Range-keyed std::map: nonempty keys in strictly
ascending, pairwise disjoint order. -/
def arMapWF : ARSymbolStorage → Bool
  | [] => true
  | x :: rest =>
    decide (x.1.start < x.1.stop) &&
    (match rest with
     | [] => true
     | y :: _ => decide (x.1.stop ≤ y.1.start)) && arMapWF rest

/-- Well-formedness of a slice of the resolver symbol map relative to the
window from lo to hi: keys nonempty, ordered, chained above lo and bounded
by hi.  This is the input invariant of the gap-filling theorems. -/
def arWellFormed (lo hi : Nat) : ARSymbolStorage → Bool
  | [] => decide (lo ≤ hi)
  | (r, _) :: rest =>
    decide (lo ≤ r.start) && decide (r.start < r.stop) && decide (r.stop ≤ hi) &&
      arWellFormed r.stop hi rest

/-- Scenario 6 of the spec: a callchain with a kernel context excursion. -/
def c5Event : SampleEvent :=
  SampleEvent.mk 0x401010 7
    [PERF_CONTEXT_USER, 0x401010, 0x402005, PERF_CONTEXT_KERNEL, 0x500000,
     PERF_CONTEXT_USER, 0x403000]

/-- A profile holding one memory object covering scenario 6's user frames. -/
def c5Profile : Profile :=
  Profile.mk [(Range.mk 0x400000 0x404000, MemoryObjectData.mk "bin" [])] [] 0 0 0

/-- An event stream in which the second object receives only callchain
frames, never a leaf ip. -/
def c10events : List PerfEventRecord :=
  [PerfEventRecord.mmap 0x400000 0x2000 "binA",
   PerfEventRecord.mmap 0x600000 0x1000 "libB",
   PerfEventRecord.sample (SampleEvent.mk 0x401010 3 [PERF_CONTEXT_USER, 0x401010, 0x600500])]

/-- A binary with a prelink-undo section but no debug-link section. -/
def c4InfoA : ElfInfo :=
  ElfInfo.mk 0x800000 true [ElfSymbol.mk 0x401000 0x20 2 1 1 "main"] false [] false true
    [ProgramHeader.mk 1 0x400000] none

/-- A binary with prelink-undo and debug-link sections and a main symtab. -/
def c4InfoB : ElfInfo :=
  ElfInfo.mk 0x800000 true [ElfSymbol.mk 0x401000 0x20 2 1 1 "main"] false [] true true
    [ProgramHeader.mk 1 0x400000] none

def c4WitnessSyms : List ElfSymbol := [ElfSymbol.mk 0x401000 0x20 2 1 1 "main"]

/-- Scenario 4 of the spec: prelink-undo plus debug-link, symbols coming
from the companion debug file. -/
def c4WitnessInfo : ElfInfo :=
  ElfInfo.mk 0x800000 false [] false [] true true [ProgramHeader.mk 1 0x400000]
    (some c4WitnessSyms)

/-! ### Basic lemmas -/

theorem Range.contains_iff {r : Range} {a : Nat} :
    r.contains a = true ↔ r.start ≤ a ∧ a < r.stop := by
  simp [Range.contains]

theorem u64sub_eq_sub {a b : Nat} (hba : b ≤ a) (ha : a < U64) : u64sub a b = a - b := by
  have hb : b < U64 := lt_of_le_of_lt hba ha
  have hbm : b % U64 = b := Nat.mod_eq_of_lt hb
  unfold u64sub
  rw [hbm]
  have h1 : a + (U64 - b) = U64 + (a - b) := by omega
  rw [h1, Nat.add_mod_left]
  exact Nat.mod_eq_of_lt (by omega)

/-! ### Sample accounting (claim C1) -/

theorem sampleStep_counterSum (mode : ProfileMode) (ev : SampleEvent) (st : Profile) :
    (processSampleEvent mode ev st).goodSamplesCount +
      (processSampleEvent mode ev st).badSamplesCount =
    st.goodSamplesCount + st.badSamplesCount + 1 := by
  unfold processSampleEvent
  split
  · simp_arith
  · split
    · simp_arith
    · split
      · simp_arith
      · simp_arith

theorem loadFold_counterSum (mode : ProfileMode) :
    ∀ (events : List PerfEventRecord) (st : Profile),
      (events.foldl (processEvent mode) st).goodSamplesCount +
        (events.foldl (processEvent mode) st).badSamplesCount =
      st.goodSamplesCount + st.badSamplesCount + events.countP isSampleRecord := by
  intro events
  induction events with
  | nil => intro st; simp
  | cons e rest ih =>
    intro st
    cases e with
    | mmap a l f =>
      simp only [List.foldl_cons, processEvent]
      rw [ih]
      have hc : List.countP isSampleRecord (PerfEventRecord.mmap a l f :: rest)
          = List.countP isSampleRecord rest := by
        simp [List.countP_cons, isSampleRecord]
      rw [hc]
      simp [processMmapEvent]
    | sample ev =>
      simp only [List.foldl_cons, processEvent]
      rw [ih]
      have h := sampleStep_counterSum mode ev st
      have hc : List.countP isSampleRecord (PerfEventRecord.sample ev :: rest)
          = List.countP isSampleRecord rest + 1 := by
        simp [List.countP_cons, isSampleRecord]
      rw [hc]
      omega
    | other =>
      simp only [List.foldl_cons, processEvent]
      rw [ih]
      have hc : List.countP isSampleRecord (PerfEventRecord.other :: rest)
          = List.countP isSampleRecord rest := by
        simp [List.countP_cons, isSampleRecord]
      rw [hc]

/-- Claim C1: each SAMPLE record increments exactly one of the two
counters, goodSamplesCount exactly when the sample is valid (callchain[0]
is PERF_CONTEXT_USER, the size lies between 2 and 127, and ip lies in some
memory object of the current map), badSamplesCount otherwise; hence after
load the two counters sum to the number of SAMPLE records in the stream. -/
theorem c1_sample_counter_accounting :
    (∀ (mode : ProfileMode) (ev : SampleEvent) (st : Profile),
        (isValidSample st.memoryObjects ev →
            (processSampleEvent mode ev st).goodSamplesCount = st.goodSamplesCount + 1 ∧
            (processSampleEvent mode ev st).badSamplesCount = st.badSamplesCount) ∧
        (¬ isValidSample st.memoryObjects ev →
            (processSampleEvent mode ev st).badSamplesCount = st.badSamplesCount + 1 ∧
            (processSampleEvent mode ev st).goodSamplesCount = st.goodSamplesCount)) ∧
    (∀ (mode : ProfileMode) (events : List PerfEventRecord),
        (profileLoad events mode).goodSamplesCount + (profileLoad events mode).badSamplesCount
          = events.countP isSampleRecord) := by
  constructor
  · intro mode ev st
    constructor
    · rintro ⟨h0, h2, h127, o, ho, hco⟩
      have hcond : ¬(ev.callchain.getD 0 0 ≠ PERF_CONTEXT_USER ∨ ev.callchainSize < 2 ∨
          PERF_MAX_STACK_DEPTH < ev.callchainSize) := by
        push_neg
        exact ⟨h0, h2, h127⟩
      unfold processSampleEvent
      rw [if_neg hcond]
      cases hfind : st.memoryObjects.find? (fun o => o.1.contains ev.ip) with
      | none =>
        have := List.find?_eq_none.mp hfind o ho
        simp [hco] at this
      | some s =>
        by_cases hm : mode = ProfileMode.CallGraph
        · subst hm; simp
        · simp [hm]
    · intro hnv
      by_cases hcond : ev.callchain.getD 0 0 ≠ PERF_CONTEXT_USER ∨ ev.callchainSize < 2 ∨
          PERF_MAX_STACK_DEPTH < ev.callchainSize
      · unfold processSampleEvent
        rw [if_pos hcond]
        simp
      · push_neg at hcond
        obtain ⟨h0, h2, h127⟩ := hcond
        cases hfind : st.memoryObjects.find? (fun o => o.1.contains ev.ip) with
        | some s =>
          have hs1 : s ∈ st.memoryObjects := List.mem_of_find?_eq_some hfind
          have hs2 : s.1.contains ev.ip = true := by simpa using List.find?_some hfind
          exact absurd ⟨h0, h2, h127, s, hs1, hs2⟩ hnv
        | none =>
          unfold processSampleEvent
          rw [if_neg (by push_neg; exact ⟨h0, h2, h127⟩), hfind]
          simp
  · intro mode events
    unfold profileLoad
    simpa [initialProfile] using loadFold_counterSum mode events initialProfile

theorem c1_witness :
    (processSampleEvent ProfileMode.Flat (SampleEvent.mk 0 0 []) initialProfile).badSamplesCount
      = initialProfile.badSamplesCount + 1 ∧
    (profileLoad [PerfEventRecord.sample (SampleEvent.mk 0 0 [])] ProfileMode.Flat).goodSamplesCount
      + (profileLoad [PerfEventRecord.sample (SampleEvent.mk 0 0 [])] ProfileMode.Flat).badSamplesCount
      = List.countP isSampleRecord [PerfEventRecord.sample (SampleEvent.mk 0 0 [])] :=
  ⟨((c1_sample_counter_accounting.1 ProfileMode.Flat (SampleEvent.mk 0 0 []) initialProfile).2
      (by decide)).1,
   c1_sample_counter_accounting.2 ProfileMode.Flat [PerfEventRecord.sample (SampleEvent.mk 0 0 [])]⟩

/-! ### Callgraph walk (claim C5) -/

/-- Claim C5: the callchain walk behaves as specified (the code's step
equals the step built from the claim's wording), and on scenario 6 the
walk produces exactly the branches from 0x402005 to 0x401010 and from
0x403000 to 0x402005, the kernel frame being skipped. -/
theorem c5_callgraph_walk :
    (∀ (acc : MemoryObjectStorage × Bool × Nat) (callFrom : Nat),
        walkStep acc callFrom = walkStepSpec acc callFrom) ∧
    (processSampleEvent ProfileMode.CallGraph c5Event c5Profile).memoryObjects =
      [(Range.mk 0x400000 0x404000, MemoryObjectData.mk "bin"
         [(0x401010, EntryData.mk 1 []),
          (0x402005, EntryData.mk 0 [(0x401010, 1)]),
          (0x403000, EntryData.mk 0 [(0x402005, 1)])])] := by
  constructor
  · intro acc a
    by_cases h1 : PERF_CONTEXT_MAX < a
    · simp [walkStep, walkStepSpec, h1]
    · by_cases h2 : acc.2.1 = true ∨ a = acc.2.2
      · simp [walkStep, walkStepSpec, h1, h2]
      · cases h : acc.1.find? (fun o => o.1.contains a) with
        | none => simp [walkStep, walkStepSpec, h1, h2, h]
        | some s => simp [walkStep, walkStepSpec, h1, h2, h]
  · decide

/-! ### Branch-created entries (claim C10) -/

theorem entriesLookup_cons (a : Nat) (ed : EntryData) (rest : EntryStorage) (f : Nat) :
    entriesLookup ((a, ed) :: rest) f = if a = f then some ed else entriesLookup rest f := by
  by_cases h : a = f
  · simp [entriesLookup, List.find?_cons_of_pos, h]
  · simp [entriesLookup, List.find?_cons_of_neg, h]

theorem entriesAddBranch_lookup_none (f t : Nat) (c : Nat) :
    ∀ (es : EntryStorage), entriesLookup es f = none →
      entriesLookup (entriesAddBranch es f t c) f = some (EntryData.mk 0 [(t, c)]) := by
  intro es
  induction es with
  | nil =>
    intro _
    simp [entriesAddBranch, entriesAppend, entriesLookup, EntryData.appendBranch, branchesAdd,
      List.find?]
  | cons e rest ih =>
    intro h
    obtain ⟨a, ed⟩ := e
    rw [entriesLookup_cons] at h
    by_cases haf : a = f
    · rw [if_pos haf] at h
      exact absurd h (by simp)
    · rw [if_neg haf] at h
      rcases Nat.lt_trichotomy f a with hlt | heq | hgt
      · simp only [entriesAddBranch, entriesAppend, if_pos hlt, List.map_cons]
        simp [entriesLookup_cons, EntryData.appendBranch, branchesAdd, haf]
      · exact absurd heq.symm haf
      · have h1 : ¬(f < a) := Nat.lt_asymm hgt
        have h2 : ¬(f = a) := fun hh => haf hh.symm
        simp only [entriesAddBranch, entriesAppend, if_neg h1, if_neg h2, List.map_cons]
        simp only [if_neg haf]
        rw [entriesLookup_cons, if_neg haf]
        exact ih h

/-- Claim C10: appending a branch creates an entry with sample count 0 at
the branch source address when none exists; consequently, after the
end-of-stream drop of entry-less objects, a memory object that received
only callchain frames (never a leaf ip) survives the load, holding
entries whose count is 0. -/
theorem c10_branch_creates_zero_count_entry :
    (∀ (d : MemoryObjectData) (f t : Nat) (c : Nat),
        entriesLookup d.entries f = none →
        entriesLookup (d.appendBranch f t c).entries f = some (EntryData.mk 0 [(t, c)])) ∧
    ((Range.mk 0x600000 0x601000,
       MemoryObjectData.mk "libB" [(0x600500, EntryData.mk 0 [(0x401010, 1)])]) ∈
      (profileLoad c10events ProfileMode.CallGraph).memoryObjects) := by
  constructor
  · intro d f t c h
    exact entriesAddBranch_lookup_none f t c d.entries h
  · decide

theorem c10_witness :
    entriesLookup ((MemoryObjectData.mk "x" []).appendBranch 5 7 1).entries 5
      = some (EntryData.mk 0 [(7, 1)]) :=
  c10_branch_creates_zero_count_entry.1 (MemoryObjectData.mk "x" []) 5 7 1 (by decide)

/-! ### Range map membership lemmas -/

theorem mem_rangeMapInsert {α : Type} :
    ∀ (l : List (Range × α)) (r : Range) (d : α) (x : Range × α),
      x ∈ rangeMapInsert l r d → x = (r, d) ∨ x ∈ l := by
  intro l
  induction l with
  | nil => intro r d x hx; simpa [rangeMapInsert] using hx
  | cons y rest ih =>
    intro r d x hx
    obtain ⟨r0, d0⟩ := y
    by_cases h1 : r.stop ≤ r0.start
    · simp only [rangeMapInsert, if_pos h1, List.mem_cons] at hx
      rcases hx with hx | hx | hx
      · left; exact hx
      · right; simp [hx]
      · right; simp [hx]
    · by_cases h2 : r0.stop ≤ r.start
      · simp only [rangeMapInsert, if_neg h1, if_pos h2, List.mem_cons] at hx
        rcases hx with hx | hx
        · right; simp [hx]
        · rcases ih r d x hx with hx | hx
          · left; exact hx
          · right; simp [hx]
      · simp only [rangeMapInsert, if_neg h1, if_neg h2] at hx
        right; exact hx

theorem mem_of_mem_eraseRange {α : Type} :
    ∀ (l : List (Range × α)) (rng : Range) (x : Range × α), x ∈ eraseRange l rng → x ∈ l := by
  intro l
  induction l with
  | nil => intro rng x hx; simp [eraseRange] at hx
  | cons y rest ih =>
    intro rng x hx
    by_cases h : y.1 = rng
    · simp only [eraseRange, if_pos h] at hx
      exact List.mem_cons_of_mem _ hx
    · simp only [eraseRange, if_neg h, List.mem_cons] at hx
      rcases hx with hx | hx
      · simp [hx]
      · exact List.mem_cons_of_mem _ (ih rng x hx)

/-! ### Prelink base handling (claim C4) -/

theorem mem_arSymbolInsert (storage : ARSymbolStorage) (r : Range) (d : ARSymbolData)
    (x : Range × ARSymbolData) (h : x ∈ arSymbolInsert storage r d) :
    x = (r, d) ∨ x ∈ storage := by
  unfold arSymbolInsert at h
  cases hf : storage.find? (fun y => Range.overlapsB y.1 r) with
  | none =>
    rw [hf] at h
    exact mem_rangeMapInsert _ _ _ _ h
  | some s =>
    rw [hf] at h
    dsimp only at h
    by_cases hb : (s.2.size = 0 ∧ d.size ≠ 0) ∨ s.2.binding < d.binding
    · rw [if_pos hb] at h
      rcases mem_rangeMapInsert _ _ _ _ h with hx | hx
      · exact Or.inl hx
      · exact Or.inr (mem_of_mem_eraseRange _ _ _ hx)
    · rw [if_neg hb] at h
      exact Or.inr h

theorem mem_loadSymbolStep (origBase base : Nat) (storage : ARSymbolStorage) (sym : ElfSymbol)
    (x : Range × ARSymbolData) (h : x ∈ loadSymbolStep origBase base storage sym) :
    x ∈ storage ∨
      (sym.st_type = STT_FUNC ∧ sym.st_shndx ≠ SHN_UNDEF ∧
        x.1.start = u64add (u64sub sym.st_value origBase) base) := by
  by_cases hc : sym.st_type ≠ STT_FUNC ∨ sym.st_shndx = SHN_UNDEF
  · unfold loadSymbolStep at h
    rw [if_pos hc] at h
    exact Or.inl h
  · simp only [loadSymbolStep, if_neg hc] at h
    push_neg at hc
    rcases mem_arSymbolInsert _ _ _ _ h with hx | hx
    · right
      refine ⟨hc.1, hc.2, ?_⟩
      rw [hx]
    · left; exact hx

theorem mem_loadSymbolFold (origBase base : Nat) :
    ∀ (syms : List ElfSymbol) (storage : ARSymbolStorage) (x : Range × ARSymbolData),
      x ∈ syms.foldl (loadSymbolStep origBase base) storage →
      x ∈ storage ∨ ∃ sym ∈ syms,
        sym.st_type = STT_FUNC ∧ sym.st_shndx ≠ SHN_UNDEF ∧
        x.1.start = u64add (u64sub sym.st_value origBase) base := by
  intro syms
  induction syms with
  | nil => intro storage x hx; exact Or.inl hx
  | cons sym rest ih =>
    intro storage x hx
    rw [List.foldl_cons] at hx
    rcases ih (loadSymbolStep origBase base storage sym) x hx with hx | ⟨s, hs, h1, h2, h3⟩
    · rcases mem_loadSymbolStep origBase base storage sym x hx with hx | ⟨h1, h2, h3⟩
      · exact Or.inl hx
      · exact Or.inr ⟨sym, List.mem_cons_self _ _, h1, h2, h3⟩
    · exact Or.inr ⟨s, List.mem_cons_of_mem _ hs, h1, h2, h3⟩

/-- Claim C4, counterexample: with a prelink-undo section but no
debug-link section (c4InfoA) the original base is left at the live base
0x800000, not set to the prelink-undo PT_LOAD p_vaddr 0x400000; and with
both sections present but a main-file symtab (c4InfoB) the original base
is updated, yet the accepted symbol with st_value 0x401000 is stored at
start 0x401000, not at 0x401000 - 0x400000 + 0x800000 = 0x801000. -/
theorem c4_counterexample :
    ((constructSymbols c4InfoA).1 = 0x800000 ∧ (constructSymbols c4InfoA).1 ≠ 0x400000) ∧
    ((constructSymbols c4InfoB).1 = 0x400000 ∧
      (constructSymbols c4InfoB).2.map (fun s => s.1.start) = [0x401000]) := by
  refine ⟨⟨?_, ?_⟩, ?_, ?_⟩ <;> decide

/-- Claim C4, amended: whenever the binary has both a .gnu.prelink_undo
and a .gnu_debuglink section, the resolver sets the original base address
to the p_vaddr of the first PT_LOAD program header decoded from the
prelink-undo section, and every function symbol accepted from the
companion debug file's symbol table (the file consulted when the main
file has no symtab) is stored at start = st_value - originalBase +
loadBase; with no prelink-undo section the two bases stay equal, so the
stored start reduces to st_value. -/
theorem c4_prelink_amended :
    (∀ (info : ElfInfo) (p : ProgramHeader) (ds : List ElfSymbol),
        info.hasPrelinkUndo = true → info.hasDebugLink = true →
        info.prelinkUndoPhdrs.find? (fun q => q.p_type == PT_LOAD) = some p →
        info.hasSymTab = false → info.debugSymTab = some ds →
        (constructSymbols info).1 = p.p_vaddr ∧
        ∀ x ∈ (constructSymbols info).2, ∃ sym ∈ ds,
          sym.st_type = STT_FUNC ∧ sym.st_shndx ≠ SHN_UNDEF ∧
          x.1.start = u64add (u64sub sym.st_value p.p_vaddr) info.baseAddress) ∧
    (∀ (info : ElfInfo), info.hasPrelinkUndo = false →
        (constructSymbols info).1 = info.baseAddress) ∧
    (∀ v b : Nat, b ≤ v → v < U64 → u64add (u64sub v b) b = v) := by
  refine ⟨?_, ?_, ?_⟩
  · intro info p ds h1 h2 h3 h4 h5
    have hpair : constructSymbols info
        = (p.p_vaddr, loadSymbolsFromSection p.p_vaddr info.baseAddress ds) := by
      simp only [constructSymbols, setOriginalBaseAddress, h1, h2, h4, h5, h3]
      simp
    constructor
    · rw [hpair]
    · intro x hx
      rw [hpair] at hx
      rcases mem_loadSymbolFold p.p_vaddr info.baseAddress ds [] x hx with hx | hx
      · simp at hx
      · exact hx
  · intro info h
    simp only [constructSymbols, h]
    simp
  · intro v b hbv hv
    rw [u64sub_eq_sub hbv hv]
    unfold u64add
    rw [Nat.sub_add_cancel hbv]
    exact Nat.mod_eq_of_lt hv

theorem c4_witness :
    (constructSymbols c4WitnessInfo).1 = 0x400000 ∧
    u64add (u64sub 0x401000 0x400000) 0x800000 = 0x801000 ∧
    (constructSymbols c4WitnessInfo).2.map (fun s => s.1.start) = [0x801000] :=
  ⟨(c4_prelink_amended.1 c4WitnessInfo (ProgramHeader.mk 1 0x400000) c4WitnessSyms rfl rfl
      (by decide) rfl rfl).1,
   by decide, by decide⟩

/-! ### Symbol collision policy (claim C6) -/

theorem arMapWF_parts {x z : Range × ARSymbolData} {t : ARSymbolStorage}
    (h : arMapWF (x :: z :: t) = true) :
    x.1.start < x.1.stop ∧ x.1.stop ≤ z.1.start ∧ arMapWF (z :: t) = true := by
  simp only [arMapWF, Bool.and_eq_true, decide_eq_true_iff] at h
  refine ⟨h.1.1, h.1.2, ?_⟩
  simp only [arMapWF, Bool.and_eq_true, decide_eq_true_iff]
  exact h.2

theorem arMapWF_tail {x : Range × ARSymbolData} {l : ARSymbolStorage}
    (h : arMapWF (x :: l) = true) : arMapWF l = true := by
  cases l with
  | nil => rfl
  | cons z t => exact (arMapWF_parts h).2.2

theorem arMapWF_head_le {x : Range × ARSymbolData} :
    ∀ {l : ARSymbolStorage}, arMapWF (x :: l) = true → ∀ y ∈ l, x.1.stop ≤ y.1.start := by
  intro l
  induction l generalizing x with
  | nil => intro _ y hy; simp at hy
  | cons z t ih =>
    intro h y hy
    obtain ⟨hx1, hx2, hz⟩ := arMapWF_parts h
    rcases List.mem_cons.mp hy with hy | hy
    · rw [hy]; exact hx2
    · have hz1 : z.1.start < z.1.stop := by
        cases t with
        | nil => simpa [arMapWF, Bool.and_eq_true, decide_eq_true_iff] using hz
        | cons w u => exact (arMapWF_parts hz).1
      have := ih hz y hy
      calc x.1.stop ≤ z.1.start := hx2
        _ ≤ z.1.stop := Nat.le_of_lt hz1
        _ ≤ y.1.start := this

theorem arMapWF_head_nonempty {x : Range × ARSymbolData} {l : ARSymbolStorage}
    (h : arMapWF (x :: l) = true) : x.1.start < x.1.stop := by
  cases l with
  | nil => simpa [arMapWF, Bool.and_eq_true, decide_eq_true_iff] using h
  | cons z t => exact (arMapWF_parts h).1

theorem mem_eraseRange_wf :
    ∀ (l : ARSymbolStorage), arMapWF l = true → ∀ (rng : Range) (x : Range × ARSymbolData),
      x ∈ eraseRange l rng → x.1 ≠ rng := by
  intro l
  induction l with
  | nil => intro _ rng x hx; simp [eraseRange] at hx
  | cons y t ih =>
    intro hwf rng x hx
    by_cases h : y.1 = rng
    · simp only [eraseRange, if_pos h] at hx
      have h1 : y.1.stop ≤ x.1.start := arMapWF_head_le hwf x hx
      have h2 : y.1.start < y.1.stop := arMapWF_head_nonempty hwf
      intro hx1
      rw [hx1, ← h] at h1
      omega
    · simp only [eraseRange, if_neg h, List.mem_cons] at hx
      rcases hx with hx | hx
      · rw [hx]; exact h
      · exact ih (arMapWF_tail hwf) rng x hx

theorem rangeMapInsert_self_mem {α : Type} :
    ∀ (l : List (Range × α)) (r : Range) (d : α),
      (∀ y ∈ l, Range.overlapsB y.1 r = false) → (r, d) ∈ rangeMapInsert l r d := by
  intro l
  induction l with
  | nil => intro r d _; simp [rangeMapInsert]
  | cons y t ih =>
    intro r d h
    obtain ⟨r0, d0⟩ := y
    by_cases h1 : r.stop ≤ r0.start
    · simp [rangeMapInsert, h1]
    · by_cases h2 : r0.stop ≤ r.start
      · simp only [rangeMapInsert, if_neg h1, if_pos h2]
        exact List.mem_cons_of_mem _ (ih r d (fun y hy => h y (List.mem_cons_of_mem _ hy)))
      · exfalso
        have hov : Range.overlapsB (r0, d0).1 r = true := by
          simp only [Range.overlapsB, decide_eq_true_iff]
          constructor
          · omega
          · omega
        have := h (r0, d0) (List.mem_cons_self _ _)
        rw [hov] at this
        exact Bool.true_eq_false.mp this

/-- Claim C6: when a function symbol is inserted into a range already
occupied by one previously stored symbol, the new symbol replaces the old
one iff (old size is 0 and new size is positive) or the new binding is
strictly greater; in every other case, ties included, the first-inserted
symbol is kept and the map is unchanged. -/
theorem c6_collision_policy (storage : ARSymbolStorage) (r : Range) (d : ARSymbolData)
    (s : Range × ARSymbolData)
    (hwf : arMapWF storage = true)
    (hfind : storage.find? (fun x => Range.overlapsB x.1 r) = some s)
    (huniq : ∀ x ∈ storage, Range.overlapsB x.1 r = true → x = s) :
    (((s.2.size = 0 ∧ d.size ≠ 0) ∨ s.2.binding < d.binding) →
        arSymbolInsert storage r d = rangeMapInsert (eraseRange storage s.1) r d ∧
        (r, d) ∈ arSymbolInsert storage r d ∧ s ∉ arSymbolInsert storage r d) ∧
    (¬((s.2.size = 0 ∧ d.size ≠ 0) ∨ s.2.binding < d.binding) →
        arSymbolInsert storage r d = storage) := by
  have heq : arSymbolInsert storage r d =
      if (s.2.size = 0 ∧ d.size ≠ 0) ∨ s.2.binding < d.binding then
        rangeMapInsert (eraseRange storage s.1) r d
      else storage := by
    unfold arSymbolInsert
    rw [hfind]
  constructor
  · intro hb
    have h1 : arSymbolInsert storage r d = rangeMapInsert (eraseRange storage s.1) r d := by
      rw [heq, if_pos hb]
    refine ⟨h1, ?_, ?_⟩
    · rw [h1]
      apply rangeMapInsert_self_mem
      intro y hy
      cases hov : Range.overlapsB y.1 r with
      | false => rfl
      | true =>
        have hymem : y ∈ storage := mem_of_mem_eraseRange _ _ _ hy
        have hys : y = s := huniq y hymem hov
        rw [hys] at hy
        exact absurd rfl (mem_eraseRange_wf storage hwf s.1 s hy)
    · rw [h1]
      intro hmem
      rcases mem_rangeMapInsert _ _ _ _ hmem with hx | hx
      · have hd : s.2 = d := by rw [hx]
        rcases hb with ⟨hz, hnz⟩ | hlt
        · rw [hd] at hz
          exact hnz hz
        · rw [hd] at hlt
          exact lt_irrefl _ hlt
      · exact absurd rfl (mem_eraseRange_wf storage hwf s.1 s hx)
  · intro hb
    rw [heq, if_neg hb]

theorem c6_witness :
    arSymbolInsert [(Range.mk 0x401000 0x401020, ARSymbolData.mk 0x20 "f" 1)]
        (Range.mk 0x401000 0x401020) (ARSymbolData.mk 0x20 "g" 1)
      = [(Range.mk 0x401000 0x401020, ARSymbolData.mk 0x20 "f" 1)] :=
  (c6_collision_policy [(Range.mk 0x401000 0x401020, ARSymbolData.mk 0x20 "f" 1)]
      (Range.mk 0x401000 0x401020) (ARSymbolData.mk 0x20 "g" 1)
      (Range.mk 0x401000 0x401020, ARSymbolData.mk 0x20 "f" 1)
      (by decide) (by decide) (by decide)).2 (by decide)

/-! ### Branch fixup (claims C8 and C9) -/

theorem lookupWeight_cons (a c : Nat) (bs : BranchStorage) (t : Nat) :
    lookupWeight ((a, c) :: bs) t = if a = t then c else lookupWeight bs t := by
  by_cases h : a = t
  · simp [lookupWeight, List.find?_cons_of_pos, h]
  · simp [lookupWeight, List.find?_cons_of_neg, h]

theorem lookupWeight_eq_zero :
    ∀ {bs : BranchStorage} {t : Nat}, (∀ y ∈ bs, t < y.1) → lookupWeight bs t = 0 := by
  intro bs
  induction bs with
  | nil => intro t _; rfl
  | cons b rest ih =>
    intro t h
    obtain ⟨a, c⟩ := b
    have ha : t < a := h (a, c) (List.mem_cons_self _ _)
    rw [lookupWeight_cons, if_neg (by omega)]
    exact ih (fun y hy => h y (List.mem_cons_of_mem _ hy))

theorem mem_branchesAdd :
    ∀ (bs : BranchStorage) (a c : Nat) (y : Nat × Nat),
      y ∈ branchesAdd bs a c → y.1 = a ∨ y ∈ bs := by
  intro bs
  induction bs with
  | nil =>
    intro a c y hy
    simp only [branchesAdd, List.mem_singleton] at hy
    left; rw [hy]
  | cons b rest ih =>
    intro a c y hy
    obtain ⟨a0, c0⟩ := b
    by_cases h1 : a < a0
    · simp only [branchesAdd, if_pos h1, List.mem_cons] at hy
      rcases hy with hy | hy | hy
      · left; rw [hy]
      · right; simp [hy]
      · right; simp [hy]
    · by_cases h2 : a = a0
      · simp only [branchesAdd, if_neg h1, if_pos h2, List.mem_cons] at hy
        rcases hy with hy | hy
        · left; rw [hy, h2]
        · right; simp [hy]
      · simp only [branchesAdd, if_neg h1, if_neg h2, List.mem_cons] at hy
        rcases hy with hy | hy
        · right; simp [hy]
        · rcases ih a c y hy with hy | hy
          · left; exact hy
          · right; simp [hy]

theorem pairwise_branchesAdd :
    ∀ (bs : BranchStorage) (a c : Nat),
      bs.Pairwise (fun p q => p.1 < q.1) →
      (branchesAdd bs a c).Pairwise (fun p q => p.1 < q.1) := by
  intro bs
  induction bs with
  | nil => intro a c _; simp [branchesAdd]
  | cons b rest ih =>
    intro a c hp
    obtain ⟨a0, c0⟩ := b
    rw [List.pairwise_cons] at hp
    obtain ⟨hhead, hrest⟩ := hp
    by_cases h1 : a < a0
    · simp only [branchesAdd, if_pos h1]
      rw [List.pairwise_cons]
      constructor
      · intro y hy
        rcases List.mem_cons.mp hy with hy | hy
        · rw [hy]; exact h1
        · have := hhead y hy
          simp only []
          omega
      · rw [List.pairwise_cons]
        exact ⟨hhead, hrest⟩
    · by_cases h2 : a = a0
      · simp only [branchesAdd, if_neg h1, if_pos h2]
        rw [List.pairwise_cons]
        exact ⟨hhead, hrest⟩
      · simp only [branchesAdd, if_neg h1, if_neg h2]
        rw [List.pairwise_cons]
        constructor
        · intro y hy
          rcases mem_branchesAdd rest a c y hy with hy | hy
          · rw [hy]; omega
          · exact hhead y hy
        · exact ih a c hrest

theorem lookupWeight_branchesAdd :
    ∀ (bs : BranchStorage) (a c t : Nat),
      bs.Pairwise (fun p q => p.1 < q.1) →
      lookupWeight (branchesAdd bs a c) t
        = lookupWeight bs t + (if a = t then c else 0) := by
  intro bs
  induction bs with
  | nil =>
    intro a c t _
    simp only [branchesAdd]
    rw [lookupWeight_cons]
    by_cases h : a = t
    · simp [lookupWeight, h]
    · simp [lookupWeight, h]
  | cons b rest ih =>
    intro a c t hp
    obtain ⟨a0, c0⟩ := b
    rw [List.pairwise_cons] at hp
    obtain ⟨hhead, hrest⟩ := hp
    by_cases h1 : a < a0
    · simp only [branchesAdd, if_pos h1]
      rw [lookupWeight_cons, lookupWeight_cons]
      by_cases ht : a = t
      · rw [if_pos ht, if_pos ht]
        have hz : lookupWeight ((a0, c0) :: rest) t = 0 := by
          apply lookupWeight_eq_zero
          intro y hy
          rcases List.mem_cons.mp hy with hy | hy
          · rw [hy]; omega
          · have := hhead y hy; omega
        rw [← ht] at hz ⊢
        rw [lookupWeight_cons] at hz
        rw [if_neg (by omega)] at hz ⊢
        omega
      · rw [if_neg ht, if_neg ht]
        by_cases h0 : a0 = t
        · rw [if_pos h0]; omega
        · rw [if_neg h0]; omega
    · by_cases h2 : a = a0
      · simp only [branchesAdd, if_neg h1, if_pos h2]
        rw [lookupWeight_cons, lookupWeight_cons]
        subst h2
        by_cases ht : a = t
        · rw [if_pos ht, if_pos ht, if_pos ht]
        · rw [if_neg ht, if_neg ht, if_neg ht]; omega
      · simp only [branchesAdd, if_neg h1, if_neg h2]
        rw [lookupWeight_cons, lookupWeight_cons]
        by_cases h0 : a0 = t
        · rw [if_pos h0, if_pos h0]
          rw [if_neg (by omega)]
          omega
        · rw [if_neg h0, if_neg h0]
          exact ih a c t hrest

theorem totalWeight_branchesAdd :
    ∀ (bs : BranchStorage) (a c : Nat), totalWeight (branchesAdd bs a c) = totalWeight bs + c := by
  intro bs
  induction bs with
  | nil => intro a c; simp [branchesAdd, totalWeight]
  | cons b rest ih =>
    intro a c
    obtain ⟨a0, c0⟩ := b
    by_cases h1 : a < a0
    · simp only [branchesAdd, if_pos h1, totalWeight, List.map_cons, List.sum_cons]
      omega
    · by_cases h2 : a = a0
      · simp only [branchesAdd, if_neg h1, if_pos h2, totalWeight, List.map_cons, List.sum_cons]
        omega
      · simp only [branchesAdd, if_neg h1, if_neg h2, totalWeight, List.map_cons, List.sum_cons]
        have := ih a c
        simp only [totalWeight] at this
        omega

theorem fixupStep_eq (symbols : SymbolStorage) (acc : EntryData) (b : Nat × Nat) :
    fixupStep symbols acc b = acc.appendBranch (fixTarget symbols b.1) b.2 := by
  unfold fixupStep fixTarget
  cases h : SymbolStorage.findAddr symbols b.1 <;> rfl

theorem fixupFold_count (symbols : SymbolStorage) :
    ∀ (bs : BranchStorage) (acc : EntryData),
      (bs.foldl (fixupStep symbols) acc).count = acc.count := by
  intro bs
  induction bs with
  | nil => intro acc; rfl
  | cons b rest ih =>
    intro acc
    rw [List.foldl_cons, ih, fixupStep_eq]
    rfl

theorem fixupFold_pairwise (symbols : SymbolStorage) :
    ∀ (bs : BranchStorage) (acc : EntryData),
      acc.branches.Pairwise (fun p q => p.1 < q.1) →
      ((bs.foldl (fixupStep symbols) acc).branches).Pairwise (fun p q => p.1 < q.1) := by
  intro bs
  induction bs with
  | nil => intro acc h; exact h
  | cons b rest ih =>
    intro acc h
    rw [List.foldl_cons]
    apply ih
    rw [fixupStep_eq]
    exact pairwise_branchesAdd _ _ _ h

theorem fixupFold_lookup (symbols : SymbolStorage) :
    ∀ (bs : BranchStorage) (acc : EntryData) (t : Nat),
      acc.branches.Pairwise (fun p q => p.1 < q.1) →
      lookupWeight ((bs.foldl (fixupStep symbols) acc).branches) t
        = lookupWeight acc.branches t
          + ((bs.map (fun b => if fixTarget symbols b.1 = t then b.2 else 0)).sum) := by
  intro bs
  induction bs with
  | nil => intro acc t _; simp
  | cons b rest ih =>
    intro acc t hp
    rw [List.foldl_cons, List.map_cons, List.sum_cons]
    rw [ih (fixupStep symbols acc b) t (by rw [fixupStep_eq]; exact pairwise_branchesAdd _ _ _ hp)]
    rw [fixupStep_eq]
    show lookupWeight (branchesAdd acc.branches (fixTarget symbols b.1) b.2) t + _ = _
    rw [lookupWeight_branchesAdd _ _ _ _ hp]
    omega

theorem fixupFold_total (symbols : SymbolStorage) :
    ∀ (bs : BranchStorage) (acc : EntryData),
      totalWeight ((bs.foldl (fixupStep symbols) acc).branches)
        = totalWeight acc.branches + totalWeight bs := by
  intro bs
  induction bs with
  | nil => intro acc; simp [totalWeight]
  | cons b rest ih =>
    intro acc
    rw [List.foldl_cons, ih]
    rw [fixupStep_eq]
    show totalWeight (branchesAdd acc.branches (fixTarget symbols b.1) b.2) + _ = _
    rw [totalWeight_branchesAdd]
    simp only [totalWeight, List.map_cons, List.sum_cons]
    omega

theorem mem_fixupFold (symbols : SymbolStorage) :
    ∀ (bs : BranchStorage) (acc : EntryData) (y : Nat × Nat),
      y ∈ (bs.foldl (fixupStep symbols) acc).branches →
      y ∈ acc.branches ∨ ∃ b ∈ bs, y.1 = fixTarget symbols b.1 := by
  intro bs
  induction bs with
  | nil => intro acc y hy; exact Or.inl hy
  | cons b rest ih =>
    intro acc y hy
    rw [List.foldl_cons] at hy
    rcases ih (fixupStep symbols acc b) y hy with hy | ⟨b0, hb0, hy⟩
    · rw [fixupStep_eq] at hy
      rcases mem_branchesAdd _ _ _ _ hy with hy | hy
      · exact Or.inr ⟨b, List.mem_cons_self _ _, hy⟩
      · exact Or.inl hy
    · exact Or.inr ⟨b0, List.mem_cons_of_mem _ hb0, hy⟩

theorem fixup_count (symbols : SymbolStorage) (ed : EntryData) :
    (EntryData.fixup symbols ed).count = ed.count := by
  unfold EntryData.fixup
  split
  · rfl
  · rw [fixupFold_count]

/-- Claim C8: after branch fixup, every branch target of every entry
either lies in no symbol or equals the start of some symbol; and branches
of one entry whose original targets fall inside the same symbol are
merged, the resulting weight at each target being the sum of the original
weights rewritten to it. -/
theorem c8_branch_fixup_targets (symbols : SymbolStorage) (objs : MemoryObjectStorage) :
    (∀ o ∈ profileFixupBranches objs symbols, ∀ e ∈ o.2.entries, ∀ b ∈ e.2.branches,
        (∀ s ∈ symbols, s.1.contains b.1 = false) ∨ (∃ s ∈ symbols, b.1 = s.1.start)) ∧
    (∀ o ∈ objs, ∀ e ∈ o.2.entries, ∀ t : Nat,
        lookupWeight ((EntryData.fixup symbols e.2).branches) t
          = ((e.2.branches.map
              (fun b => if fixTarget symbols b.1 = t then b.2 else 0)).sum)) := by
  constructor
  · intro o ho e he b hb
    obtain ⟨o0, ho0, rfl⟩ := List.mem_map.mp ho
    simp only [MemoryObjectData.fixupBranches] at he
    obtain ⟨e0, he0, rfl⟩ := List.mem_map.mp he
    by_cases hemp : e0.2.branches.isEmpty
    · rw [EntryData.fixup, if_pos hemp] at hb
      rw [List.isEmpty_iff.mp hemp] at hb
      simp at hb
    · rw [EntryData.fixup, if_neg hemp] at hb
      rcases mem_fixupFold symbols _ _ _ hb with hb | ⟨b0, _, hb⟩
      · simp at hb
      · unfold fixTarget at hb
        cases hfa : SymbolStorage.findAddr symbols b0.1 with
        | some s =>
          rw [hfa] at hb
          right
          exact ⟨s, List.mem_of_find?_eq_some hfa, hb⟩
        | none =>
          rw [hfa] at hb
          left
          intro s hs
          have := List.find?_eq_none.mp hfa s hs
          rw [hb]
          simpa using this
  · intro o _ e _ t
    unfold EntryData.fixup
    by_cases hemp : e.2.branches.isEmpty
    · rw [if_pos hemp]
      rw [List.isEmpty_iff.mp hemp]
      simp [lookupWeight]
    · rw [if_neg hemp]
      rw [fixupFold_lookup symbols _ _ t (by simp)]
      simp [lookupWeight]

theorem c8_witness :
    ((∀ s ∈ ([(Range.mk 0x401000 0x401020, "main")] : SymbolStorage),
        s.1.contains 0x401000 = false) ∨
      (∃ s ∈ ([(Range.mk 0x401000 0x401020, "main")] : SymbolStorage),
        (0x401000 : Nat) = s.1.start)) ∧
    lookupWeight ((EntryData.fixup [(Range.mk 0x401000 0x401020, "main")]
        (EntryData.mk 1 [(0x401005, 1), (0x401010, 2)])).branches) 0x401000
      = (([(0x401005, 1), (0x401010, 2)] : BranchStorage).map
          (fun b => if fixTarget [(Range.mk 0x401000 0x401020, "main")] b.1 = 0x401000
                    then b.2 else 0)).sum :=
  ⟨(c8_branch_fixup_targets [(Range.mk 0x401000 0x401020, "main")]
      [(Range.mk 0x400000 0x402000, MemoryObjectData.mk "bin"
        [(0x400f00, EntryData.mk 1 [(0x401005, 1), (0x401010, 2)])])]).1
      (Range.mk 0x400000 0x402000, MemoryObjectData.mk "bin"
        [(0x400f00, EntryData.mk 1 [(0x401000, 3)])]) (by decide)
      (0x400f00, EntryData.mk 1 [(0x401000, 3)]) (by decide)
      (0x401000, 3) (by decide),
   (c8_branch_fixup_targets [(Range.mk 0x401000 0x401020, "main")]
      [(Range.mk 0x400000 0x402000, MemoryObjectData.mk "bin"
        [(0x400f00, EntryData.mk 1 [(0x401005, 1), (0x401010, 2)])])]).2
      (Range.mk 0x400000 0x402000, MemoryObjectData.mk "bin"
        [(0x400f00, EntryData.mk 1 [(0x401005, 1), (0x401010, 2)])]) (by decide)
      (0x400f00, EntryData.mk 1 [(0x401005, 1), (0x401010, 2)]) (by decide)
      0x401000⟩

/-- Claim C9: branch fixup only regroups branch targets: for every entry
the count is unchanged (keys and counts of the entry map are preserved in
order), the total branch weight is unchanged, and entries with no
branches are left untouched. -/
theorem c9_fixup_frame (symbols : SymbolStorage) (d : MemoryObjectData) :
    ((d.fixupBranches symbols).entries.map (fun e => (e.1, e.2.count))
        = d.entries.map (fun e => (e.1, e.2.count))) ∧
    (∀ e ∈ d.entries, totalWeight ((EntryData.fixup symbols e.2).branches)
        = totalWeight e.2.branches) ∧
    (∀ e ∈ d.entries, e.2.branches = [] → EntryData.fixup symbols e.2 = e.2) := by
  refine ⟨?_, ?_, ?_⟩
  · simp only [MemoryObjectData.fixupBranches, List.map_map]
    apply List.map_congr_left
    intro e _
    simp [Function.comp, fixup_count]
  · intro e _
    unfold EntryData.fixup
    by_cases hemp : e.2.branches.isEmpty
    · rw [if_pos hemp]
    · rw [if_neg hemp]
      rw [fixupFold_total]
      simp [totalWeight]
  · intro e _ hb
    simp [EntryData.fixup, hb]

theorem c9_witness :
    ((MemoryObjectData.mk "bin"
        [(0x400f00, EntryData.mk 1 [(0x401005, 1), (0x401010, 2)])]).fixupBranches
          [(Range.mk 0x401000 0x401020, "main")]).entries.map (fun e => (e.1, e.2.count))
      = ([(0x400f00, EntryData.mk 1 [(0x401005, 1), (0x401010, 2)])] : EntryStorage).map
          (fun e => (e.1, e.2.count)) ∧
    totalWeight ((EntryData.fixup [(Range.mk 0x401000 0x401020, "main")]
        (EntryData.mk 1 [(0x401005, 1), (0x401010, 2)])).branches)
      = totalWeight [(0x401005, 1), (0x401010, 2)] :=
  ⟨(c9_fixup_frame [(Range.mk 0x401000 0x401020, "main")]
      (MemoryObjectData.mk "bin"
        [(0x400f00, EntryData.mk 1 [(0x401005, 1), (0x401010, 2)])])).1,
   (c9_fixup_frame [(Range.mk 0x401000 0x401020, "main")]
      (MemoryObjectData.mk "bin"
        [(0x400f00, EntryData.mk 1 [(0x401005, 1), (0x401010, 2)])])).2.1
      (0x400f00, EntryData.mk 1 [(0x401005, 1), (0x401010, 2)]) (by decide)⟩

/-! ### Resolve (claim C3) -/

theorem entriesSorted_pairwise :
    ∀ (l : EntryStorage), entriesSorted l = true → l.Pairwise (fun a b => a.1 ≤ b.1) := by
  intro l
  induction l with
  | nil => intro _; exact List.Pairwise.nil
  | cons e rest ih =>
    intro h
    simp only [entriesSorted, Bool.and_eq_true] at h
    obtain ⟨hadj, hrest⟩ := h
    have hp : rest.Pairwise (fun a b => a.1 ≤ b.1) := ih hrest
    rw [List.pairwise_cons]
    refine ⟨?_, hp⟩
    intro y hy
    cases rest with
    | nil => simp at hy
    | cons e2 t =>
      have he2 : e.1 ≤ e2.1 := by simpa using hadj
      rcases List.mem_cons.mp hy with hy | hy
      · rw [hy]; exact he2
      · have := (List.pairwise_cons.mp hp).1 y hy
        omega

theorem dropWhile_eq_filter_not {α : Type} (p : α → Bool) :
    ∀ (l : List α), l.Pairwise (fun a b => p b = true → p a = true) →
      l.dropWhile p = l.filter (fun x => !(p x)) := by
  intro l
  induction l with
  | nil => intro _; rfl
  | cons x xs ih =>
    intro hp
    rw [List.pairwise_cons] at hp
    obtain ⟨hx, hxs⟩ := hp
    cases hpx : p x with
    | true =>
      rw [List.dropWhile_cons, if_pos hpx, List.filter_cons, if_neg (by simp [hpx])]
      exact ih hxs
    | false =>
      rw [List.dropWhile_cons, if_neg (by simp [hpx]), List.filter_cons, if_pos (by simp [hpx])]
      congr 1
      symm
      rw [List.filter_eq_self]
      intro a ha
      cases hpa : p a with
      | false => simp
      | true => exact absurd (hx a ha hpa) (by simp [hpx])

theorem resolveGo_eq_spec (arSymbols : ARSymbolStorage) (adjust : Nat) :
    ∀ (n : Nat) (entries : EntryStorage), entries.length ≤ n →
      entries.Pairwise (fun a b => a.1 ≤ b.1) →
      (∀ e ∈ entries, adjust ≤ e.1 ∧ e.1 < U64) →
      resolveGo arSymbols adjust entries = resolveSpecGo arSymbols adjust entries := by
  intro n
  induction n with
  | zero =>
    intro entries hlen _ _
    rw [List.eq_nil_of_length_eq_zero (Nat.le_zero.mp hlen)]
    rw [resolveGo, resolveSpecGo]
  | succ n ih =>
    intro entries hlen hp hb
    cases entries with
    | nil => rw [resolveGo, resolveSpecGo]
    | cons e rest =>
      rw [resolveGo, resolveSpecGo]
      cases hf : arSymbols.find? (fun s => s.1.contains (u64sub e.1 adjust)) with
      | none =>
        exact ih rest (by simpa using hlen)
          (List.Pairwise.of_cons hp) (fun y hy => hb y (List.mem_cons_of_mem _ hy))
      | some s =>
        have hrest : rest.length ≤ n := by simpa using hlen
        dsimp only
        congr 1
        have hdf : rest.dropWhile (fun e2 => decide (u64sub e2.1 adjust < s.1.stop))
            = rest.filter (fun e2 => !decide (u64sub e2.1 adjust < s.1.stop)) := by
          apply dropWhile_eq_filter_not
          apply List.Pairwise.imp_of_mem ?_ (List.Pairwise.of_cons hp)
          intro a b ha hb2 hab habP
          have hba : adjust ≤ a.1 ∧ a.1 < U64 := hb a (List.mem_cons_of_mem _ ha)
          have hbb : adjust ≤ b.1 ∧ b.1 < U64 := hb b (List.mem_cons_of_mem _ hb2)
          rw [u64sub_eq_sub hbb.1 hbb.2] at habP
          rw [u64sub_eq_sub hba.1 hba.2]
          simp only [decide_eq_true_iff] at habP ⊢
          omega
        rw [hdf]
        apply ih
        · exact le_trans (List.length_filter_le _ _) hrest
        · exact (List.Pairwise.of_cons hp).sublist (List.filter_sublist rest)
        · intro y hy
          exact hb y (List.mem_cons_of_mem _ ((List.filter_sublist rest).subset hy))

/-- Claim C3: resolve computes adjust = loadBase - resolverBaseAddress,
looks each entry address minus adjust up in the symbol map; a hit emits
exactly one symbol with the adjusted range and the stored name (or
func_ followed by the hex of the stored, unadjusted start when the name
is empty), and then every subsequent entry whose address minus adjust is
below that symbol's end is skipped; misses emit nothing.  For sorted
entries the code equals the specification-worded recursion that filters
out all such subsequent entries. -/
theorem c3_resolve_spec (arSymbols : ARSymbolStorage) (resolverBase loadBase : Nat)
    (entries : EntryStorage)
    (hb : resolverBase ≤ loadBase) (hlb : loadBase < U64)
    (hsort : entriesSorted entries = true)
    (hbound : ∀ e ∈ entries, loadBase - resolverBase ≤ e.1 ∧ e.1 < U64) :
    resolverResolve arSymbols resolverBase loadBase entries
      = resolverResolveSpec arSymbols resolverBase loadBase entries := by
  unfold resolverResolve resolverResolveSpec
  rw [u64sub_eq_sub hb hlb]
  exact resolveGo_eq_spec arSymbols (loadBase - resolverBase) entries.length entries le_rfl
    (entriesSorted_pairwise entries hsort) hbound

theorem c3_witness :
    resolverResolve
        [(Range.mk 0x401000 0x401020, ARSymbolData.mk 0x20 "main" 1),
         (Range.mk 0x401020 0x402000, ARSymbolData.mk 0xfe0 "" 0)]
        0x400000 0x400000
        [(0x401005, EntryData.mk 1 []), (0x401010, EntryData.mk 2 []),
         (0x401030, EntryData.mk 1 [])]
      = resolverResolveSpec
        [(Range.mk 0x401000 0x401020, ARSymbolData.mk 0x20 "main" 1),
         (Range.mk 0x401020 0x402000, ARSymbolData.mk 0xfe0 "" 0)]
        0x400000 0x400000
        [(0x401005, EntryData.mk 1 []), (0x401010, EntryData.mk 2 []),
         (0x401030, EntryData.mk 1 [])] :=
  c3_resolve_spec _ 0x400000 0x400000 _ (by decide) (by decide) (by decide) (by decide)

/-! ### Gap filling (claims C2 and C7) -/

theorem arWF_nil_iff {lo hi : Nat} : arWellFormed lo hi [] = true ↔ lo ≤ hi := by
  simp [arWellFormed]

theorem arWF_cons_iff {lo hi : Nat} {r : Range} {d : ARSymbolData} {rest : ARSymbolStorage} :
    arWellFormed lo hi ((r, d) :: rest) = true ↔
      lo ≤ r.start ∧ r.start < r.stop ∧ r.stop ≤ hi ∧ arWellFormed r.stop hi rest = true := by
  simp [arWellFormed, Bool.and_eq_true, decide_eq_true_iff, and_assoc]

theorem arWF_labelEnd (base objSize : Nat) :
    ∀ (rest : ARSymbolStorage) (s : Nat), arWellFormed s (base + objSize) rest = true →
      arWellFormed (labelEnd base objSize rest) (base + objSize) rest = true := by
  intro rest s h
  cases rest with
  | nil => simp [labelEnd, arWellFormed]
  | cons x t =>
    obtain ⟨r2, d2⟩ := x
    rw [arWF_cons_iff] at h
    rw [labelEnd, arWF_cons_iff]
    exact ⟨le_rfl, h.2.1, h.2.2.1, h.2.2.2⟩

theorem labelEnd_ge_stop (base objSize : Nat) :
    ∀ (rest : ARSymbolStorage) (stop0 : Nat), arWellFormed stop0 (base + objSize) rest = true →
      stop0 ≤ labelEnd base objSize rest := by
  intro rest stop0 h
  cases rest with
  | nil => exact arWF_nil_iff.mp h
  | cons x t =>
    obtain ⟨r2, d2⟩ := x
    rw [arWF_cons_iff] at h
    exact h.1

theorem labelEnd_le_hi (base objSize : Nat) :
    ∀ (rest : ARSymbolStorage) (stop0 : Nat), arWellFormed stop0 (base + objSize) rest = true →
      labelEnd base objSize rest ≤ base + objSize := by
  intro rest stop0 h
  cases rest with
  | nil => exact le_rfl
  | cons x t =>
    obtain ⟨r2, d2⟩ := x
    rw [arWF_cons_iff] at h
    rw [labelEnd]
    dsimp only
    omega

theorem fakeGo_nil (base objSize : Nat) (bn : String) (prevEnd : Nat) :
    fakeGo base objSize bn prevEnd []
      = if 4 ≤ u64sub (base + objSize) prevEnd then
          [(Range.mk prevEnd (base + objSize), gapData (u64sub (base + objSize) prevEnd))]
        else [] := by
  rfl

theorem fakeGo_cons (base objSize : Nat) (bn : String) (prevEnd : Nat) (r : Range)
    (d : ARSymbolData) (rest : ARSymbolStorage) :
    fakeGo base objSize bn prevEnd ((r, d) :: rest)
      = (if 4 ≤ u64sub r.start prevEnd then
           [(Range.mk prevEnd r.start, gapData (u64sub r.start prevEnd))]
         else [])
        ++ (if d.size = 0 then
              (Range.mk r.start (labelEnd base objSize rest),
                ARSymbolData.mk (u64sub (labelEnd base objSize rest) r.start)
                  (d.name ++ "@" ++ bn) 0)
                :: fakeGo base objSize bn (labelEnd base objSize rest) rest
            else (r, d) :: fakeGo base objSize bn r.stop rest) := by
  by_cases hgap : 4 ≤ u64sub r.start prevEnd <;> by_cases hz : d.size = 0 <;>
    simp [fakeGo, hgap, hz]

theorem fakeGo_wf (base objSize : Nat) (bn : String) (hU : base + objSize < U64) :
    ∀ (syms : ARSymbolStorage) (prevEnd : Nat),
      arWellFormed prevEnd (base + objSize) syms = true →
      arWellFormed prevEnd (base + objSize) (fakeGo base objSize bn prevEnd syms) = true := by
  intro syms
  induction syms with
  | nil =>
    intro prevEnd h
    have hle : prevEnd ≤ base + objSize := arWF_nil_iff.mp h
    rw [fakeGo_nil, u64sub_eq_sub hle hU]
    by_cases hgap : 4 ≤ base + objSize - prevEnd
    · rw [if_pos hgap, arWF_cons_iff]
      exact ⟨le_rfl, by dsimp only; omega, le_rfl, arWF_nil_iff.mpr le_rfl⟩
    · rw [if_neg hgap]
      exact arWF_nil_iff.mpr hle
  | cons x rest ih =>
    intro prevEnd h
    obtain ⟨r, d⟩ := x
    rw [arWF_cons_iff] at h
    obtain ⟨h1, h2, h3, h4⟩ := h
    have hrU : r.start < U64 := by dsimp only; omega
    rw [fakeGo_cons, u64sub_eq_sub h1 hrU]
    by_cases hz : d.size = 0
    · rw [if_pos hz]
      have hge : r.stop ≤ labelEnd base objSize rest := labelEnd_ge_stop base objSize rest _ h4
      have hle2 : labelEnd base objSize rest ≤ base + objSize :=
        labelEnd_le_hi base objSize rest _ h4
      have hrec := ih (labelEnd base objSize rest) (arWF_labelEnd base objSize rest _ h4)
      by_cases hgap : 4 ≤ r.start - prevEnd
      · rw [if_pos hgap]
        simp only [List.singleton_append]
        rw [arWF_cons_iff]
        refine ⟨le_rfl, by dsimp only; omega, by dsimp only; omega, ?_⟩
        rw [arWF_cons_iff]
        exact ⟨le_rfl, by dsimp only; omega, by dsimp only; omega, hrec⟩
      · rw [if_neg hgap]
        simp only [List.nil_append]
        rw [arWF_cons_iff]
        exact ⟨h1, by dsimp only; omega, by dsimp only; omega, hrec⟩
    · rw [if_neg hz]
      have hrec := ih r.stop h4
      by_cases hgap : 4 ≤ r.start - prevEnd
      · rw [if_pos hgap]
        simp only [List.singleton_append]
        rw [arWF_cons_iff]
        refine ⟨le_rfl, by dsimp only; omega, by dsimp only; omega, ?_⟩
        rw [arWF_cons_iff]
        exact ⟨le_rfl, h2, h3, hrec⟩
      · rw [if_neg hgap]
        simp only [List.nil_append]
        rw [arWF_cons_iff]
        exact ⟨h1, h2, h3, hrec⟩

theorem arWF_start_ge :
    ∀ (l : ARSymbolStorage) (lo hi : Nat), arWellFormed lo hi l = true →
      ∀ x ∈ l, lo ≤ x.1.start := by
  intro l
  induction l with
  | nil => intro lo hi _ x hx; simp at hx
  | cons y rest ih =>
    intro lo hi h x hx
    obtain ⟨r, d⟩ := y
    rw [arWF_cons_iff] at h
    rcases List.mem_cons.mp hx with hx | hx
    · rw [hx]; exact h.1
    · have := ih r.stop hi h.2.2.2 x hx
      omega

theorem arWF_pairwise_disjoint :
    ∀ (l : ARSymbolStorage) (lo hi : Nat), arWellFormed lo hi l = true →
      (l.map Prod.fst).Pairwise
        (fun r1 r2 => ∀ a, ¬(r1.contains a = true ∧ r2.contains a = true)) := by
  intro l
  induction l with
  | nil => intro lo hi _; simp
  | cons y rest ih =>
    intro lo hi h
    obtain ⟨r, d⟩ := y
    rw [arWF_cons_iff] at h
    rw [List.map_cons, List.pairwise_cons]
    constructor
    · intro r2 hr2 a hc
      obtain ⟨x, hx, rfl⟩ := List.mem_map.mp hr2
      have hge : r.stop ≤ x.1.start := arWF_start_ge rest r.stop hi h.2.2.2 x hx
      have hca := Range.contains_iff.mp hc.1
      have hcb := Range.contains_iff.mp hc.2
      dsimp only at hca hcb
      omega
    · exact ih r.stop hi h.2.2.2

theorem fakeGo_cover (base objSize : Nat) (bn : String) (hU : base + objSize < U64) :
    ∀ (syms : ARSymbolStorage) (prevEnd : Nat),
      arWellFormed prevEnd (base + objSize) syms = true →
      ∀ a, prevEnd ≤ a → a + 4 ≤ base + objSize →
      ∃ k, k < 4 ∧ ∃ s ∈ fakeGo base objSize bn prevEnd syms, s.1.contains (a + k) = true := by
  intro syms
  induction syms with
  | nil =>
    intro prevEnd h a ha h4
    have hle : prevEnd ≤ base + objSize := arWF_nil_iff.mp h
    rw [fakeGo_nil, u64sub_eq_sub hle hU]
    have hgap : 4 ≤ base + objSize - prevEnd := by omega
    rw [if_pos hgap]
    refine ⟨0, by omega, (Range.mk prevEnd (base + objSize), gapData (base + objSize - prevEnd)),
      List.mem_cons_self _ _, ?_⟩
    rw [Range.contains_iff]
    dsimp only
    omega
  | cons x rest ih =>
    intro prevEnd h a ha h4len
    obtain ⟨r, d⟩ := x
    rw [arWF_cons_iff] at h
    obtain ⟨h1, h2, h3, h4⟩ := h
    have hrU : r.start < U64 := by omega
    rw [fakeGo_cons, u64sub_eq_sub h1 hrU]
    by_cases hz : d.size = 0
    · rw [if_pos hz]
      have hge : r.stop ≤ labelEnd base objSize rest := labelEnd_ge_stop base objSize rest _ h4
      have hle2 : labelEnd base objSize rest ≤ base + objSize :=
        labelEnd_le_hi base objSize rest _ h4
      have hwrest := arWF_labelEnd base objSize rest _ h4
      by_cases haz : a < r.start
      · by_cases hgap : 4 ≤ r.start - prevEnd
        · rw [if_pos hgap]
          refine ⟨0, by omega, (Range.mk prevEnd r.start, gapData (r.start - prevEnd)), ?_, ?_⟩
          · simp
          · rw [Range.contains_iff]; dsimp only; omega
        · rw [if_neg hgap]
          simp only [List.nil_append]
          refine ⟨r.start - a, by omega,
            (Range.mk r.start (labelEnd base objSize rest),
              ARSymbolData.mk (u64sub (labelEnd base objSize rest) r.start)
                (d.name ++ "@" ++ bn) 0), ?_, ?_⟩
          · simp
          · rw [Range.contains_iff]; dsimp only; omega
      · push_neg at haz
        by_cases hband : a < labelEnd base objSize rest
        · refine ⟨0, by omega,
            (Range.mk r.start (labelEnd base objSize rest),
              ARSymbolData.mk (u64sub (labelEnd base objSize rest) r.start)
                (d.name ++ "@" ++ bn) 0), ?_, ?_⟩
          · by_cases hgap : 4 ≤ r.start - prevEnd <;> simp [hgap]
          · rw [Range.contains_iff]; dsimp only; omega
        · push_neg at hband
          obtain ⟨k, hk, s, hs, hc⟩ :=
            ih (labelEnd base objSize rest) hwrest a hband h4len
          refine ⟨k, hk, s, ?_, hc⟩
          by_cases hgap : 4 ≤ r.start - prevEnd <;> simp [hgap, hs]
    · rw [if_neg hz]
      by_cases haz : a < r.start
      · by_cases hgap : 4 ≤ r.start - prevEnd
        · rw [if_pos hgap]
          refine ⟨0, by omega, (Range.mk prevEnd r.start, gapData (r.start - prevEnd)), ?_, ?_⟩
          · simp
          · rw [Range.contains_iff]; dsimp only; omega
        · rw [if_neg hgap]
          simp only [List.nil_append]
          refine ⟨r.start - a, by omega, (r, d), by simp, ?_⟩
          rw [Range.contains_iff]
          dsimp only
          omega
      · push_neg at haz
        by_cases hband : a < r.stop
        · refine ⟨0, by omega, (r, d), ?_, ?_⟩
          · by_cases hgap : 4 ≤ r.start - prevEnd <;> simp [hgap]
          · rw [Range.contains_iff]; dsimp only; omega
        · push_neg at hband
          obtain ⟨k, hk, s, hs, hc⟩ := ih r.stop h4 a hband h4len
          refine ⟨k, hk, s, ?_, hc⟩
          by_cases hgap : 4 ≤ r.start - prevEnd <;> simp [hgap, hs]

theorem fakeGo_size_pos (base objSize : Nat) (bn : String) (hU : base + objSize < U64) :
    ∀ (syms : ARSymbolStorage) (prevEnd : Nat),
      arWellFormed prevEnd (base + objSize) syms = true →
      ∀ x ∈ fakeGo base objSize bn prevEnd syms, 0 < x.2.size := by
  intro syms
  induction syms with
  | nil =>
    intro prevEnd h x hx
    have hle : prevEnd ≤ base + objSize := arWF_nil_iff.mp h
    rw [fakeGo_nil, u64sub_eq_sub hle hU] at hx
    by_cases hgap : 4 ≤ base + objSize - prevEnd
    · rw [if_pos hgap] at hx
      rcases List.mem_singleton.mp hx with rfl
      dsimp only [gapData]
      omega
    · rw [if_neg hgap] at hx
      simp at hx
  | cons y rest ih =>
    intro prevEnd h x hx
    obtain ⟨r, d⟩ := y
    rw [arWF_cons_iff] at h
    obtain ⟨h1, h2, h3, h4⟩ := h
    have hrU : r.start < U64 := by omega
    rw [fakeGo_cons, u64sub_eq_sub h1 hrU] at hx
    rw [List.mem_append] at hx
    rcases hx with hx | hx
    · by_cases hgap : 4 ≤ r.start - prevEnd
      · rw [if_pos hgap] at hx
        rcases List.mem_singleton.mp hx with rfl
        dsimp only [gapData]
        omega
      · rw [if_neg hgap] at hx
        simp at hx
    · by_cases hz : d.size = 0
      · rw [if_pos hz] at hx
        have hge : r.stop ≤ labelEnd base objSize rest := labelEnd_ge_stop base objSize rest _ h4
        have hle2 : labelEnd base objSize rest ≤ base + objSize :=
          labelEnd_le_hi base objSize rest _ h4
        rcases List.mem_cons.mp hx with hx | hx
        · rw [hx]
          dsimp only
          rw [u64sub_eq_sub (by omega) (by omega)]
          omega
        · exact ih (labelEnd base objSize rest) (arWF_labelEnd base objSize rest _ h4) x hx
      · rw [if_neg hz] at hx
        rcases List.mem_cons.mp hx with hx | hx
        · rw [hx]
          dsimp only
          omega
        · exact ih r.stop h4 x hx

theorem arWF_append :
    ∀ (l1 l2 : ARSymbolStorage) (lo hi : Nat), arWellFormed lo hi (l1 ++ l2) = true →
      ∃ lo2, arWellFormed lo2 hi l2 = true := by
  intro l1
  induction l1 with
  | nil => intro l2 lo hi h; exact ⟨lo, h⟩
  | cons y t ih =>
    intro l2 lo hi h
    obtain ⟨r, d⟩ := y
    rw [List.cons_append, arWF_cons_iff] at h
    exact ih l2 r.stop hi h.2.2.2

theorem fakeGo_label_mem (base objSize : Nat) (bn : String) :
    ∀ (pre : ARSymbolStorage) (prevEnd : Nat) (r : Range) (d : ARSymbolData)
      (post : ARSymbolStorage),
      arWellFormed prevEnd (base + objSize) (pre ++ (r, d) :: post) = true → d.size = 0 →
      (Range.mk r.start (labelEnd base objSize post),
        ARSymbolData.mk (u64sub (labelEnd base objSize post) r.start)
          (d.name ++ "@" ++ bn) 0)
        ∈ fakeGo base objSize bn prevEnd (pre ++ (r, d) :: post) := by
  intro pre
  induction pre with
  | nil =>
    intro prevEnd r d post h hz
    rw [List.nil_append] at h ⊢
    rw [fakeGo_cons, if_pos hz]
    by_cases hgap : 4 ≤ u64sub r.start prevEnd <;> simp [hgap]
  | cons y pre2 ih =>
    intro prevEnd r d post h hz
    obtain ⟨r0, d0⟩ := y
    rw [List.cons_append] at h ⊢
    rw [arWF_cons_iff] at h
    obtain ⟨h1, h2, h3, h4⟩ := h
    rw [fakeGo_cons]
    by_cases hz0 : d0.size = 0
    · rw [if_pos hz0]
      have hmem := ih (labelEnd base objSize (pre2 ++ (r, d) :: post)) r d post
        (arWF_labelEnd base objSize _ _ h4) hz
      by_cases hgap : 4 ≤ u64sub r0.start prevEnd
      · rw [if_pos hgap]
        exact List.mem_append_right _ (List.mem_cons_of_mem _ hmem)
      · rw [if_neg hgap]
        simp only [List.nil_append]
        exact List.mem_cons_of_mem _ hmem
    · rw [if_neg hz0]
      have hmem := ih r0.stop r d post h4 hz
      by_cases hgap : 4 ≤ u64sub r0.start prevEnd
      · rw [if_pos hgap]
        exact List.mem_append_right _ (List.mem_cons_of_mem _ hmem)
      · rw [if_neg hgap]
        simp only [List.nil_append]
        exact List.mem_cons_of_mem _ hmem

/-- Claim C2: after gap filling, the symbol ranges are pairwise disjoint
and cover the window from loadBase to loadBase + objectSize up to gaps of
width at most 3: every position at least 4 below the window end has a
covered point within its next 4 addresses. -/
theorem c2_fake_symbol_coverage (base objSize : Nat) (bn : String) (syms : ARSymbolStorage)
    (hU : base + objSize < U64)
    (hwf : arWellFormed base (base + objSize) syms = true) :
    ((constructFakeSymbols base objSize bn syms).map Prod.fst).Pairwise
        (fun r1 r2 => ∀ a, ¬(r1.contains a = true ∧ r2.contains a = true)) ∧
    (∀ a, base ≤ a → a + 4 ≤ base + objSize →
        ∃ k, k < 4 ∧ ∃ s ∈ constructFakeSymbols base objSize bn syms,
          s.1.contains (a + k) = true) := by
  constructor
  · exact arWF_pairwise_disjoint _ base (base + objSize)
      (fakeGo_wf base objSize bn hU syms base hwf)
  · intro a ha h4
    exact fakeGo_cover base objSize bn hU syms base hwf a ha h4

theorem c2_witness :
    ∃ k, k < 4 ∧ ∃ s ∈ constructFakeSymbols 0x400000 0x3000 "bin"
        [(Range.mk 0x401000 0x401020, ARSymbolData.mk 0x20 "a" 1),
         (Range.mk 0x402000 0x402010, ARSymbolData.mk 0x10 "b" 1)],
      s.1.contains (0x400000 + k) = true :=
  (c2_fake_symbol_coverage 0x400000 0x3000 "bin"
    [(Range.mk 0x401000 0x401020, ARSymbolData.mk 0x20 "a" 1),
     (Range.mk 0x402000 0x402010, ARSymbolData.mk 0x10 "b" 1)]
    (by decide) (by decide)).2 0x400000 (by decide) (by decide)

/-- Claim C7: during gap filling, a symbol of stored size 0 is replaced by
a symbol starting at the same address and ending at the next symbol's
start (or loadBase + objectSize when last), renamed to the original name
followed by an at sign and the file's base name; the original zero-sized
symbol is gone from the result. -/
theorem c7_label_extension (base objSize : Nat) (bn : String) (pre post : ARSymbolStorage)
    (r : Range) (d : ARSymbolData)
    (hU : base + objSize < U64)
    (hwf : arWellFormed base (base + objSize) (pre ++ (r, d) :: post) = true)
    (hz : d.size = 0) :
    (∃ d2 : ARSymbolData,
        (Range.mk r.start (labelEnd base objSize post), d2)
          ∈ constructFakeSymbols base objSize bn (pre ++ (r, d) :: post) ∧
        d2.name = d.name ++ "@" ++ bn ∧
        d2.size = labelEnd base objSize post - r.start) ∧
    (r, d) ∉ constructFakeSymbols base objSize bn (pre ++ (r, d) :: post) := by
  constructor
  · obtain ⟨lo2, hwf2⟩ := arWF_append pre ((r, d) :: post) base (base + objSize) hwf
    rw [arWF_cons_iff] at hwf2
    obtain ⟨_, hs2, hs3, hs4⟩ := hwf2
    have hge : r.stop ≤ labelEnd base objSize post := labelEnd_ge_stop base objSize post _ hs4
    have hle2 : labelEnd base objSize post ≤ base + objSize :=
      labelEnd_le_hi base objSize post _ hs4
    refine ⟨ARSymbolData.mk (u64sub (labelEnd base objSize post) r.start)
        (d.name ++ "@" ++ bn) 0,
      fakeGo_label_mem base objSize bn pre base r d post hwf hz, rfl, ?_⟩
    dsimp only
    rw [u64sub_eq_sub (by omega) (by omega)]
  · intro hmem
    have := fakeGo_size_pos base objSize bn hU _ base hwf (r, d) hmem
    rw [hz] at this
    exact absurd this (lt_irrefl 0)

theorem c7_witness :
    ∃ d2 : ARSymbolData,
      (Range.mk 0x401000 0x401040, d2)
        ∈ constructFakeSymbols 0x401000 0x100 "foo"
            ([] ++ (Range.mk 0x401000 0x401001, ARSymbolData.mk 0 "label" 0)
              :: [(Range.mk 0x401040 0x401080, ARSymbolData.mk 0x40 "next" 1)]) ∧
      d2.name = "label" ++ "@" ++ "foo" ∧
      d2.size = 0x40 :=
  (c7_label_extension 0x401000 0x100 "foo" []
    [(Range.mk 0x401040 0x401080, ARSymbolData.mk 0x40 "next" 1)]
    (Range.mk 0x401000 0x401001) (ARSymbolData.mk 0 "label" 0)
    (by decide) (by decide) rfl).1
